import Mathlib

/-!
# Verification of the brand/country analysis pipeline

Shallow embedding of `src/brand_country_analysis.py`, a Streamlit dashboard
computing aggregate analyses (popularity, diversity, penetration, basket
size, co-occurrence, exclusivity) over order records.  Each pandas
operation used by the script is modelled as an executable Lean function on
lists:

* a DataFrame of orders is a `List Order`;
* `Series.value_counts()` is modelled by `value_counts`: distinct values in
  first-appearance order, each paired with its count, then sorted by count
  descending with a stable sort (ties keep first-appearance order, the
  deterministic reading of the pandas sort on this data);
* `explode("brands")` is flattening the per-order brand lists;
* `groupby(c)` is filtering per group key;
* the co-occurrence dictionary is a function `String → String → Nat` built
  by folding the increment step over the generated brand pairs.

Dates are abstracted: `pd.to_datetime(s).dt.date` is modelled by a
`PyDateTime` record carrying a day index and a time-of-day, whose `.date`
projection discards the time; string-to-datetime parsing is pandas-internal
and not part of this repository.
-/

/-- One row of the loaded table: shipping country, order date (abstract day
index) and the per-order list of brand names (`list(set(...))` in the
source, so duplicate-free after loading). -/
structure Order where
  shipCountryCode : String
  orderDate : Nat
  brands : List String
deriving Repr, DecidableEq

/-- A pandas Timestamp, abstracted to a calendar-day index plus a
time-of-day component. `.dt.date` keeps only the day. -/
structure PyDateTime where
  day : Nat
  time : Nat
deriving Repr, DecidableEq

/-- A raw input row before `load_data` runs: `brands` is still the
comma-joined string, `orderDate` the parsed timestamp. -/
structure RawRow where
  shipCountryCode : String
  brands : String
  orderDate : PyDateTime
deriving Repr, DecidableEq

/-- Worker for `distinctFirst`: walk the list keeping the elements not yet
seen, in order. -/
def distinctAux : List String → List String → List String
  | [], _ => []
  | a :: t, seen =>
    if a ∈ seen then distinctAux t seen else a :: distinctAux t (a :: seen)

/-- Distinct elements of a list in order of first appearance (the contents
of a Python `set(x)` enumerated deterministically; also how pandas
`value_counts` enumerates its keys before sorting). -/
def distinctFirst (l : List String) : List String :=
  distinctAux l []

/-- Worker for `split_commas`: walk the characters, cutting at every
comma; `acc` holds the current token reversed. -/
def splitCommaAux : List Char → List Char → List (List Char)
  | [], acc => [acc.reverse]
  | c :: rest, acc =>
    if c = ',' then acc.reverse :: splitCommaAux rest []
    else splitCommaAux rest (c :: acc)

/-- Python `s.split(",")` (the pandas `str.split(",")` applied to one
cell): the maximal comma-free substrings, in order, empty tokens kept. -/
def split_commas (s : String) : List String :=
  (splitCommaAux s.data []).map (fun l => ⟨l⟩)

/-- Python `s.strip()`: drop whitespace from both ends of the token.  The
loader never calls this; it exists to state what trimming would give. -/
def pyStrip (s : String) : String :=
  ⟨((s.data.dropWhile (fun c => c.isWhitespace)).reverse.dropWhile
    (fun c => c.isWhitespace)).reverse⟩

/-- Row transformation of `load_data` (src lines 24–29): split the `brands`
string on a comma, deduplicate (`list(set(x))` — no trimming happens), and
keep only the date part of the timestamp. -/
def load_row (r : RawRow) : Order :=
  { shipCountryCode := r.shipCountryCode
    orderDate := r.orderDate.day
    brands := distinctFirst (split_commas r.brands) }

/-- Stable descending insertion by the numeric component: the new pair goes
in front of the first existing pair whose value is ≤ its own, so earlier
elements win ties. -/
def insertDesc {β : Type} [LinearOrder β] (p : String × β) :
    List (String × β) → List (String × β)
  | [] => [p]
  | q :: t => if q.2 ≤ p.2 then p :: q :: t else q :: insertDesc p t

/-- Stable insertion sort, descending by the numeric component: the model
of the sort inside `value_counts` / `sort_values(ascending=False)`. -/
def sortDesc {β : Type} [LinearOrder β] : List (String × β) → List (String × β)
  | [] => []
  | p :: t => insertDesc p (sortDesc t)

/-- The (label, count) pairs of a series in first-appearance order, before
sorting — the hash-table stage of `value_counts`. -/
def distinctPairs (l : List String) : List (String × Nat) :=
  (distinctFirst l).map (fun b => (b, l.count b))

/-- `Series.value_counts()`: distinct values with their multiplicities,
sorted by count descending, ties in first-appearance order. -/
def value_counts (l : List String) : List (String × Nat) :=
  sortDesc (distinctPairs l)

/-- `df.explode("brands")["brands"]`: the flattened list of (order, brand)
occurrences, keeping duplicates across orders. -/
def explode_brands (v : List Order) : List String :=
  v.flatMap (fun o => o.brands)

/-- Brand Popularity (src lines 99–101):
`df_filtered.explode("brands")["brands"].value_counts().head(top_n)`. -/
def brand_popularity (v : List Order) (topN : Nat) : List (String × Nat) :=
  (value_counts (explode_brands v)).take topN

/-- The orders of the view shipped to country `c`: one group of
`groupby("shipCountryCode")`. -/
def orders_from (v : List Order) (c : String) : List Order :=
  v.filter (fun o => o.shipCountryCode = c)

/-- Country Diversity (src lines 115–120): per country, the number of
distinct brands over all its orders; sorted descending, `head(top_n)`. -/
def country_diversity (v : List Order) (topN : Nat) : List (String × Nat) :=
  (sortDesc ((distinctFirst (v.map (fun o => o.shipCountryCode))).map
    (fun c => (c, (distinctFirst (explode_brands (orders_from v c))).length)))).take topN

/-- Brand Penetration (src lines 136–142):
`explode("brands").groupby("shipCountryCode")["brands"].value_counts(normalize=True).unstack().fillna(0)`.
Cell (c, b): the share of brand `b` among the exploded (order, brand) rows
of country `c`; 0 when country `c` has no exploded rows (absent row) or
brand `b` never occurs there (`fillna(0)`). -/
def brand_penetration (v : List Order) (c b : String) : ℚ :=
  let rows := explode_brands (orders_from v c)
  if rows.length = 0 then 0 else (rows.count b : ℚ) / (rows.length : ℚ)

/-- The row labels of the penetration matrix: the group keys of
`groupby("shipCountryCode")` on the exploded frame, i.e. the countries of
the orders contributing at least one (order, brand) row. -/
def penetration_rows (v : List Order) : List String :=
  distinctFirst ((v.filter (fun o => o.brands ≠ [])).map (fun o => o.shipCountryCode))

/-- Average Basket Size (src lines 156–161): per country, mean of
`len(set(brands))` over its orders; sorted descending, `head(top_n)`. -/
def avg_basket_size (v : List Order) (topN : Nat) : List (String × ℚ) :=
  (sortDesc ((distinctFirst (v.map (fun o => o.shipCountryCode))).map
    (fun c => (c, (((orders_from v c).map
      (fun o => (distinctFirst o.brands).length)).sum : ℚ) /
      ((orders_from v c).length : ℚ))))).take topN

/-- Top 20 brands by containment count (src line 183):
`df_exploded["brands"].value_counts().head(20).index.tolist()`. -/
def top_brands (v : List Order) : List String :=
  ((value_counts (explode_brands v)).take 20).map (fun p => p.1)

/-- Orders containing at least one top brand (src lines 186–190): the
pre-restriction `df_top_brands`. -/
def df_top_brands (v : List Order) (top : List String) : List Order :=
  v.filter (fun o => o.brands.any (fun b => b ∈ top))

/-- `itertools.combinations(l, 2)` in order: all pairs of positions i < j. -/
def combinations2 : List String → List (String × String)
  | [] => []
  | a :: t => t.map (fun b => (a, b)) ++ combinations2 t

/-- One iteration of the counting loop (src lines 200–202): a generated
pair increments both symmetric cells of the dictionary. -/
def cooccStep (m : String → String → Nat) (p : String × String) :
    String → String → Nat :=
  fun x y =>
    (if x = p.1 ∧ y = p.2 then 1 else 0) +
    (if x = p.2 ∧ y = p.1 then 1 else 0) + m x y

/-- The brand pairs generated from one order: distinct-position pairs of
the order's brands restricted to the top set (src lines 199–200). -/
def order_pairs (top : List String) (o : Order) : List (String × String) :=
  combinations2 (o.brands.filter (fun b => b ∈ top))

/-- The co-occurrence dictionary as a function (src lines 193–202), built
over an explicitly given order list and top-brand set: every cell starts
at 0 and each generated pair bumps its two symmetric cells. -/
def co_occurrence_dict (orders : List Order) (top : List String) :
    String → String → Nat :=
  (orders.flatMap (order_pairs top)).foldl cooccStep (fun _ _ => 0)

/-- The full Brand Co-occurrence analysis (src lines 176–205): top-20
brands, orders pre-restricted to those containing a top brand, pair
counting. -/
def brand_cooccurrence (v : List Order) : String → String → Nat :=
  co_occurrence_dict (df_top_brands v (top_brands v)) (top_brands v)

/-- The alternative computation claimed equivalent: pair counting over ALL
orders of the view, skipping the `df_top_brands` pre-restriction. -/
def brand_cooccurrence_unrestricted (v : List Order) : String → String → Nat :=
  co_occurrence_dict v (top_brands v)

/-- Row/column labels of `co_occurrence_df = pd.DataFrame(co_occurrence_dict)`
(src line 205): the dictionary is keyed by every top brand, so the frame
keeps every top brand as a label whatever its cell values. -/
def co_occurrence_df_labels (v : List Order) : List String :=
  top_brands v

/-- Co-occurrence by Brand (src lines 231–266): over orders containing the
selected brand, count every occurrence of each other brand; drop zero
counts; sort descending (percentage mode divides by the total mass, which
does not change the order). -/
def co_occurrence_by_brand (v : List Order) (sel : String) :
    List (String × Nat) :=
  sortDesc ((((distinctFirst (explode_brands v)).filter (fun b => b ≠ sel)).map
    (fun b => (b, (explode_brands (v.filter (fun o => sel ∈ o.brands))).count b))).filter
      (fun p => 0 < p.2))

/-- The sole brands of the single-brand orders (src lines 286–289):
`df_filtered[df_filtered["brands"].apply(len) == 1]["brands"].apply(lambda x: x[0])`. -/
def single_brand_labels (v : List Order) : List String :=
  v.filterMap (fun o => match o.brands with
    | [b] => some b
    | _ => none)

/-- Brand Exclusivity (src lines 286–292):
`value_counts(normalize=True).head(top_n)` over the sole brands of the
single-brand orders — each count divided by the number of single-brand
orders (the length of that series). -/
def brand_exclusivity (v : List Order) (topN : Nat) : List (String × ℚ) :=
  ((value_counts (single_brand_labels v)).map
    (fun p => (p.1, (p.2 : ℚ) / ((single_brand_labels v).length : ℚ)))).take topN

/-! ### Concrete datasets for counterexamples and witnesses -/

/-- One US order buying two brands. -/
def exC1 : List Order := [⟨"US", 0, ["A", "B"]⟩]

/-- Two countries, mixed basket sizes. -/
def exC1w : List Order := [⟨"US", 0, ["A", "B"]⟩, ⟨"FR", 1, ["B"]⟩]

/-- One single-brand order and one two-brand order. -/
def exC2 : List Order := [⟨"US", 0, ["A"]⟩, ⟨"US", 1, ["A", "B"]⟩]

/-- One single-brand order for B and one multi-brand order. -/
def exC2w : List Order := [⟨"US", 0, ["B"]⟩, ⟨"US", 1, ["B", "C"]⟩]

/-- A single order with two distinct brands. -/
def exC3w : List Order := [⟨"US", 0, ["A", "B"]⟩]

/-- Two single-brand orders: no pair ever co-occurs. -/
def exC4 : List Order := [⟨"US", 0, ["A"]⟩, ⟨"US", 1, ["B"]⟩]

/-- Brand A never shares an order with another brand. -/
def exC4w : List Order := [⟨"US", 0, ["A"]⟩, ⟨"FR", 1, ["B", "C"]⟩]

/-- Two equally popular brands, B encountered before A. -/
def exC5 : List Order := [⟨"US", 0, ["B"]⟩, ⟨"US", 1, ["A"]⟩]

/-- Brand A in two orders, brand B in one. -/
def exC6w : List Order := [⟨"US", 0, ["A", "B"]⟩, ⟨"FR", 1, ["A"]⟩]

/-- A raw row whose brands cell carries a space after the comma. -/
def exC9 : RawRow := ⟨"US", "A, A", ⟨5, 7⟩⟩

/-! ### Helper lemmas: distinct elements -/

theorem mem_distinctAux {a : String} :
    ∀ {l seen : List String}, a ∈ distinctAux l seen ↔ a ∈ l ∧ a ∉ seen := by
  intro l
  induction l with
  | nil => intro seen; simp [distinctAux]
  | cons b t ih =>
    intro seen
    by_cases hb : b ∈ seen
    · rw [distinctAux, if_pos hb, ih]
      constructor
      · rintro ⟨hat, hs⟩
        exact ⟨List.mem_cons_of_mem _ hat, hs⟩
      · rintro ⟨hal, hs⟩
        rcases List.mem_cons.mp hal with h | h
        · exact absurd (h ▸ hb) hs
        · exact ⟨h, hs⟩
    · rw [distinctAux, if_neg hb]
      constructor
      · intro h
        rcases List.mem_cons.mp h with h | h
        · exact ⟨h ▸ List.mem_cons_self b t, h ▸ hb⟩
        · rcases ih.mp h with ⟨hat, hs⟩
          exact ⟨List.mem_cons_of_mem _ hat,
            fun hc => hs (List.mem_cons_of_mem _ hc)⟩
      · rintro ⟨hal, hs⟩
        rcases List.mem_cons.mp hal with h | h
        · exact h ▸ List.mem_cons_self b _
        · by_cases hab : a = b
          · exact hab ▸ List.mem_cons_self b _
          · exact List.mem_cons_of_mem _
              (ih.mpr ⟨h, fun hc => (List.mem_cons.mp hc).elim hab hs⟩)

theorem mem_distinctFirst {a : String} {l : List String} :
    a ∈ distinctFirst l ↔ a ∈ l := by
  rw [distinctFirst, mem_distinctAux]
  simp

theorem nodup_distinctAux :
    ∀ {l seen : List String}, (distinctAux l seen).Nodup := by
  intro l
  induction l with
  | nil => intro seen; simp [distinctAux]
  | cons b t ih =>
    intro seen
    by_cases hb : b ∈ seen
    · rw [distinctAux, if_pos hb]; exact ih
    · rw [distinctAux, if_neg hb]
      refine List.nodup_cons.mpr ⟨fun hc => ?_, ih⟩
      exact (mem_distinctAux.mp hc).2 (List.mem_cons_self b seen)

theorem nodup_distinctFirst {l : List String} : (distinctFirst l).Nodup :=
  nodup_distinctAux

/-! ### Helper lemmas: the stable descending sort -/

section SortLemmas

variable {β : Type} [LinearOrder β]

theorem mem_insertDesc {q p : String × β} :
    ∀ {l : List (String × β)}, q ∈ insertDesc p l ↔ q = p ∨ q ∈ l := by
  intro l
  induction l with
  | nil => simp [insertDesc]
  | cons r t ih =>
    by_cases h : r.2 ≤ p.2
    · rw [insertDesc, if_pos h]; simp
    · rw [insertDesc, if_neg h]
      simp only [List.mem_cons, ih]
      tauto

theorem pairwise_insertDesc {p : String × β} {l : List (String × β)}
    (hl : l.Pairwise (fun x y => y.2 ≤ x.2)) :
    (insertDesc p l).Pairwise (fun x y => y.2 ≤ x.2) := by
  induction l with
  | nil => simp [insertDesc]
  | cons r t ih =>
    by_cases h : r.2 ≤ p.2
    · rw [insertDesc, if_pos h]
      refine List.pairwise_cons.mpr ⟨?_, hl⟩
      intro q hq
      rcases List.mem_cons.mp hq with rfl | hq
      · exact h
      · exact le_trans ((List.pairwise_cons.mp hl).1 q hq) h
    · rw [insertDesc, if_neg h]
      rcases List.pairwise_cons.mp hl with ⟨hr, ht⟩
      refine List.pairwise_cons.mpr ⟨?_, ih ht⟩
      intro q hq
      rcases mem_insertDesc.mp hq with rfl | hq
      · exact le_of_lt (lt_of_not_le h)
      · exact hr q hq

theorem pairwise_sortDesc :
    ∀ {l : List (String × β)}, (sortDesc l).Pairwise (fun x y => y.2 ≤ x.2) := by
  intro l
  induction l with
  | nil => simp [sortDesc]
  | cons p t ih => exact pairwise_insertDesc ih

theorem mem_sortDesc {q : String × β} :
    ∀ {l : List (String × β)}, q ∈ sortDesc l ↔ q ∈ l := by
  intro l
  induction l with
  | nil => simp [sortDesc]
  | cons p t ih =>
    rw [sortDesc, mem_insertDesc, ih]
    simp

theorem filter_insertDesc_pos {k : β} {p : String × β} (hp : p.2 = k) :
    ∀ {l : List (String × β)},
      (insertDesc p l).filter (fun q => q.2 = k) =
        p :: l.filter (fun q => q.2 = k) := by
  intro l
  induction l with
  | nil => simp [insertDesc, hp]
  | cons r t ih =>
    by_cases h : r.2 ≤ p.2
    · rw [insertDesc, if_pos h, List.filter_cons_of_pos (by simpa using hp)]
    · rw [insertDesc, if_neg h]
      have hr : ¬ (r.2 = k) := fun hc => h (le_of_eq (hp ▸ hc))
      rw [List.filter_cons_of_neg (by simpa using hr),
        List.filter_cons_of_neg (by simpa using hr), ih]

theorem filter_insertDesc_neg {k : β} {p : String × β} (hp : ¬ p.2 = k) :
    ∀ {l : List (String × β)},
      (insertDesc p l).filter (fun q => q.2 = k) =
        l.filter (fun q => q.2 = k) := by
  intro l
  induction l with
  | nil => simp [insertDesc, hp]
  | cons r t ih =>
    by_cases h : r.2 ≤ p.2
    · rw [insertDesc, if_pos h, List.filter_cons_of_neg (by simpa using hp)]
    · rw [insertDesc, if_neg h]
      by_cases hr : r.2 = k
      · rw [List.filter_cons_of_pos (by simpa using hr),
          List.filter_cons_of_pos (by simpa using hr), ih]
      · rw [List.filter_cons_of_neg (by simpa using hr),
          List.filter_cons_of_neg (by simpa using hr), ih]

theorem filter_sortDesc (k : β) :
    ∀ (l : List (String × β)),
      (sortDesc l).filter (fun q => q.2 = k) = l.filter (fun q => q.2 = k) := by
  intro l
  induction l with
  | nil => simp [sortDesc]
  | cons p t ih =>
    by_cases hp : p.2 = k
    · rw [sortDesc, filter_insertDesc_pos hp,
        List.filter_cons_of_pos (by simpa using hp), ih]
    · rw [sortDesc, filter_insertDesc_neg hp,
        List.filter_cons_of_neg (by simpa using hp), ih]

end SortLemmas

/-! ### Helper lemmas: co-occurrence counting -/

/-- Number of generated pairs equal to (x, y) componentwise. -/
def pairCount (ps : List (String × String)) (x y : String) : Nat :=
  ps.countP (fun p => decide (p.1 = x ∧ p.2 = y))

theorem foldl_cooccStep (x y : String) :
    ∀ (ps : List (String × String)) (m : String → String → Nat),
      (ps.foldl cooccStep m) x y =
        m x y + pairCount ps x y + pairCount ps y x := by
  intro ps
  induction ps with
  | nil => intro m; simp [pairCount]
  | cons p t ih =>
    intro m
    rw [List.foldl_cons, ih]
    simp only [pairCount, List.countP_cons, decide_eq_true_eq, cooccStep]
    by_cases h1 : p.1 = x ∧ p.2 = y <;> by_cases h2 : p.1 = y ∧ p.2 = x
    · rw [if_pos ⟨h1.1.symm, h1.2.symm⟩, if_pos ⟨h2.2.symm, h2.1.symm⟩,
        if_pos h1, if_pos h2]
      omega
    · rw [if_pos ⟨h1.1.symm, h1.2.symm⟩,
        if_neg (fun hc => h2 ⟨hc.2.symm, hc.1.symm⟩), if_pos h1, if_neg h2]
      omega
    · rw [if_neg (fun hc => h1 ⟨hc.1.symm, hc.2.symm⟩),
        if_pos ⟨h2.2.symm, h2.1.symm⟩, if_neg h1, if_pos h2]
      omega
    · rw [if_neg (fun hc => h1 ⟨hc.1.symm, hc.2.symm⟩),
        if_neg (fun hc => h2 ⟨hc.2.symm, hc.1.symm⟩), if_neg h1, if_neg h2]
      omega

theorem co_occurrence_dict_eq_pairCount (orders : List Order)
    (top : List String) (x y : String) :
    co_occurrence_dict orders top x y =
      pairCount (orders.flatMap (order_pairs top)) x y +
      pairCount (orders.flatMap (order_pairs top)) y x := by
  rw [co_occurrence_dict, foldl_cooccStep]
  omega

theorem mem_combinations2 {p : String × String} :
    ∀ {l : List String}, p ∈ combinations2 l → p.1 ∈ l ∧ p.2 ∈ l := by
  intro l
  induction l with
  | nil => intro h; simp [combinations2] at h
  | cons a t ih =>
    intro h
    rw [combinations2, List.mem_append] at h
    rcases h with h | h
    · rcases List.mem_map.mp h with ⟨b, hb, rfl⟩
      exact ⟨List.mem_cons_self a t, List.mem_cons_of_mem a hb⟩
    · rcases ih h with ⟨h1, h2⟩
      exact ⟨List.mem_cons_of_mem a h1, List.mem_cons_of_mem a h2⟩

theorem combinations2_ne {p : String × String} :
    ∀ {l : List String}, l.Nodup → p ∈ combinations2 l → p.1 ≠ p.2 := by
  intro l
  induction l with
  | nil => intro _ h; simp [combinations2] at h
  | cons a t ih =>
    intro hnd h
    rcases List.nodup_cons.mp hnd with ⟨ha, ht⟩
    rw [combinations2, List.mem_append] at h
    rcases h with h | h
    · rcases List.mem_map.mp h with ⟨b, hb, rfl⟩
      intro hc
      have hab : a = b := by simpa using hc
      exact ha (hab ▸ hb)
    · exact ih ht h

theorem mem_order_pairs {p : String × String} {top : List String} {o : Order}
    (h : p ∈ order_pairs top o) :
    (p.1 ∈ o.brands ∧ p.1 ∈ top) ∧ (p.2 ∈ o.brands ∧ p.2 ∈ top) := by
  rw [order_pairs] at h
  rcases mem_combinations2 h with ⟨h1, h2⟩
  rcases List.mem_filter.mp h1 with ⟨hb1, ht1⟩
  rcases List.mem_filter.mp h2 with ⟨hb2, ht2⟩
  exact ⟨⟨hb1, by simpa using ht1⟩, ⟨hb2, by simpa using ht2⟩⟩

theorem order_pairs_ne {p : String × String} {top : List String} {o : Order}
    (hnd : o.brands.Nodup) (h : p ∈ order_pairs top o) : p.1 ≠ p.2 :=
  combinations2_ne (hnd.filter _) h

/-- The pre-restriction is invisible to the generated pair list: an order
with no top brand generates no pair. -/
theorem flatMap_order_pairs_filter (top : List String) :
    ∀ (v : List Order),
      (v.filter (fun o => o.brands.any (fun b => b ∈ top))).flatMap
          (order_pairs top) =
        v.flatMap (order_pairs top) := by
  intro v
  induction v with
  | nil => rfl
  | cons o t ih =>
    by_cases h : o.brands.any (fun b => decide (b ∈ top))
    · rw [List.filter_cons_of_pos (by simpa using h), List.flatMap_cons,
        List.flatMap_cons, ih]
    · rw [List.filter_cons_of_neg (by simpa using h), List.flatMap_cons, ih]
      have hempty : o.brands.filter (fun b => b ∈ top) = [] := by
        rw [List.filter_eq_nil_iff]
        intro b hb
        simp only [List.any_eq_true, not_exists, not_and] at h
        simpa using fun hc => (by simpa using h b hb : b ∉ top) hc
      rw [order_pairs, hempty]
      rfl

/-! ### Helper lemmas: counting over orders -/

theorem count_explode_brands (b : String) :
    ∀ (v : List Order), (∀ o ∈ v, o.brands.Nodup) →
      (explode_brands v).count b =
        v.countP (fun o => decide (b ∈ o.brands)) := by
  intro v
  induction v with
  | nil => intro _; rfl
  | cons o t ih =>
    intro h
    have ht := ih (fun o ho => h o (List.mem_cons_of_mem _ ho))
    rw [explode_brands, List.flatMap_cons, List.count_append,
      List.countP_cons]
    rw [explode_brands] at ht
    rw [ht]
    by_cases hb : b ∈ o.brands
    · rw [List.count_eq_one_of_mem (h o (List.mem_cons_self o t)) hb,
        if_pos (by simpa using hb)]
      omega
    · rw [List.count_eq_zero_of_not_mem hb, if_neg (by simpa using hb)]
      omega

theorem length_explode_brands :
    ∀ (v : List Order),
      (explode_brands v).length = (v.map (fun o => o.brands.length)).sum := by
  intro v
  induction v with
  | nil => rfl
  | cons o t ih =>
    rw [explode_brands, List.flatMap_cons, List.length_append, List.map_cons,
      List.sum_cons]
    rw [explode_brands] at ih
    omega

theorem count_single_brand_labels (b : String) :
    ∀ (v : List Order),
      (single_brand_labels v).count b =
        v.countP (fun o => decide (o.brands = [b])) := by
  intro v
  induction v with
  | nil => rfl
  | cons o t ih =>
    rw [single_brand_labels, List.filterMap_cons, List.countP_cons]
    rw [single_brand_labels] at ih
    rcases ho : o.brands with _ | ⟨b1, bs⟩
    · rw [ih, if_neg (by simp [ho])]
      omega
    · rcases bs with _ | ⟨b2, bs2⟩
      · by_cases hb : b1 = b
        · subst hb
          rw [List.count_cons_self, ih, if_pos (by simp [ho])]
        · rw [List.count_cons_of_ne (fun hc => hb hc.symm), ih,
            if_neg (by simp [ho, hb])]
          omega
      · rw [ih, if_neg (by simp [ho])]
        omega

theorem length_single_brand_labels :
    ∀ (v : List Order),
      (single_brand_labels v).length =
        v.countP (fun o => decide (o.brands.length = 1)) := by
  intro v
  induction v with
  | nil => rfl
  | cons o t ih =>
    rw [single_brand_labels, List.filterMap_cons, List.countP_cons]
    rw [single_brand_labels] at ih
    rcases ho : o.brands with _ | ⟨b1, bs⟩
    · rw [ih, if_neg (by simp [ho])]
      omega
    · rcases bs with _ | ⟨b2, bs2⟩
      · rw [List.length_cons, ih, if_pos (by simp [ho])]
      · rw [ih, if_neg (by simp [ho])]
        omega

/-! ### Helper lemmas: value counts -/

theorem mem_value_counts {b : String} {k : Nat} {l : List String}
    (h : (b, k) ∈ value_counts l) : k = l.count b ∧ b ∈ l := by
  rw [value_counts, mem_sortDesc, distinctPairs, List.mem_map] at h
  rcases h with ⟨c, hc, hck⟩
  have hb : c = b := congrArg Prod.fst hck
  have hk : l.count c = k := congrArg Prod.snd hck
  subst hb
  exact ⟨hk.symm, mem_distinctFirst.mp hc⟩

/-! ### Claim theorems -/

/-- C3: for every filtered view whose per-order brand lists are
duplicate-free (as `load_data` produces them), the Brand Co-occurrence
matrix is symmetric and has a zero diagonal: `M[a][b] = M[b][a]` for every
pair of labels and `M[a][a] = 0` for every label. -/
theorem cooccurrence_symm_diag (v : List Order)
    (hnd : ∀ o ∈ v, o.brands.Nodup) (a b : String) :
    brand_cooccurrence v a b = brand_cooccurrence v b a ∧
    brand_cooccurrence v a a = 0 := by
  constructor
  · rw [brand_cooccurrence, co_occurrence_dict_eq_pairCount,
      co_occurrence_dict_eq_pairCount]
    omega
  · rw [brand_cooccurrence, co_occurrence_dict_eq_pairCount]
    have hz : pairCount ((df_top_brands v (top_brands v)).flatMap
        (order_pairs (top_brands v))) a a = 0 := by
      rw [pairCount, List.countP_eq_zero]
      intro p hp
      rcases List.mem_flatMap.mp hp with ⟨o, ho, hpo⟩
      have hov : o ∈ v := (List.mem_filter.mp ho).1
      have hne := order_pairs_ne (hnd o hov) hpo
      simp only [decide_eq_true_eq, not_and]
      intro h1 h2
      exact hne (h1.trans h2.symm)
    rw [hz]

/-- Witness for C3 at a concrete one-order view. -/
theorem cooccurrence_symm_diag_witness :
    (∀ o ∈ exC3w, o.brands.Nodup) ∧
    (brand_cooccurrence exC3w "A" "B" = brand_cooccurrence exC3w "B" "A" ∧
      brand_cooccurrence exC3w "A" "A" = 0) :=
  ⟨by decide, cooccurrence_symm_diag exC3w (by decide) "A" "B"⟩

/-- C10: the `df_top_brands` pre-restriction to orders containing at least
one top brand does not change the co-occurrence matrix — pair counting
over all orders of the view gives the same cells, because an order with no
top brand generates no qualifying pair. -/
theorem cooccurrence_prerestriction_equiv (v : List Order) (a b : String) :
    brand_cooccurrence v a b = brand_cooccurrence_unrestricted v a b := by
  rw [brand_cooccurrence, brand_cooccurrence_unrestricted]
  unfold co_occurrence_dict
  rw [df_top_brands, flatMap_order_pairs_filter]

/-- C4 counterexample: on a view whose two top brands never co-occur, the
result keeps both labels and every cell of the matrix is zero — the
all-zero rows and columns are NOT dropped. -/
theorem cooccurrence_keeps_zero_rows_cex :
    co_occurrence_df_labels exC4 = ["A", "B"] ∧
    brand_cooccurrence exC4 "A" "A" = 0 ∧
    brand_cooccurrence exC4 "A" "B" = 0 ∧
    brand_cooccurrence exC4 "B" "A" = 0 ∧
    brand_cooccurrence exC4 "B" "B" = 0 := by decide

/-- C4 amended: the Brand Co-occurrence result keeps every top-restricted
brand as a row/column label even when that brand co-occurs with no other
top brand; such a label's row and column are entirely zero but are
retained, not dropped. -/
theorem cooccurrence_keeps_zero_rows (v : List Order) (b : String)
    (hb : b ∈ top_brands v) (hnd : ∀ o ∈ v, o.brands.Nodup)
    (hz : ∀ o ∈ v, b ∈ o.brands → ∀ c ∈ o.brands, c ∈ top_brands v → c = b) :
    b ∈ co_occurrence_df_labels v ∧
    ∀ c, brand_cooccurrence v b c = 0 ∧ brand_cooccurrence v c b = 0 := by
  have key : ∀ p : String × String,
      p ∈ (df_top_brands v (top_brands v)).flatMap (order_pairs (top_brands v)) →
      p.1 ≠ b ∧ p.2 ≠ b := by
    intro p hp
    rcases List.mem_flatMap.mp hp with ⟨o, ho, hpo⟩
    have hov : o ∈ v := (List.mem_filter.mp ho).1
    have hne := order_pairs_ne (hnd o hov) hpo
    rcases mem_order_pairs hpo with ⟨⟨hb1, ht1⟩, hb2, ht2⟩
    constructor
    · intro h1
      have h2 : p.2 = b := hz o hov (h1 ▸ hb1) p.2 hb2 ht2
      exact hne (h1.trans h2.symm)
    · intro h2
      have h1 : p.1 = b := hz o hov (h2 ▸ hb2) p.1 hb1 ht1
      exact hne (h1.trans h2.symm)
  have hPC : ∀ x y : String, x = b ∨ y = b →
      pairCount ((df_top_brands v (top_brands v)).flatMap
        (order_pairs (top_brands v))) x y = 0 := by
    intro x y hxy
    rw [pairCount, List.countP_eq_zero]
    intro p hp
    simp only [decide_eq_true_eq, not_and]
    intro e1 e2
    rcases key p hp with ⟨k1, k2⟩
    rcases hxy with rfl | rfl
    · exact k1 e1
    · exact k2 e2
  refine ⟨hb, fun c => ⟨?_, ?_⟩⟩
  · rw [brand_cooccurrence, co_occurrence_dict_eq_pairCount,
      hPC b c (Or.inl rfl), hPC c b (Or.inr rfl)]
  · rw [brand_cooccurrence, co_occurrence_dict_eq_pairCount,
      hPC c b (Or.inr rfl), hPC b c (Or.inl rfl)]

/-- Witness for the amended C4 at a concrete view where brand A never
shares an order. -/
theorem cooccurrence_keeps_zero_rows_witness :
    ("A" ∈ top_brands exC4w) ∧ (∀ o ∈ exC4w, o.brands.Nodup) ∧
    (∀ o ∈ exC4w, "A" ∈ o.brands →
      ∀ c ∈ o.brands, c ∈ top_brands exC4w → c = "A") ∧
    ("A" ∈ co_occurrence_df_labels exC4w ∧
      brand_cooccurrence exC4w "A" "B" = 0 ∧
      brand_cooccurrence exC4w "B" "A" = 0) :=
  ⟨by decide, by decide, by decide,
    (cooccurrence_keeps_zero_rows exC4w "A" (by decide) (by decide)
        (by decide)).1,
    ((cooccurrence_keeps_zero_rows exC4w "A" (by decide) (by decide)
        (by decide)).2 "B").1,
    ((cooccurrence_keeps_zero_rows exC4w "A" (by decide) (by decide)
        (by decide)).2 "B").2⟩

/-- C5 counterexample: two labels with equal counts; brand B, encountered
first in the exploded view, is returned before the lexicographically
smaller brand A, so ties are not broken by label order. -/
theorem popularity_tiebreak_cex :
    brand_popularity exC5 3 = [("B", 1), ("A", 1)] ∧ ("A" : String) < "B" := by
  refine ⟨by decide, ?_⟩
  rw [String.lt_iff_toList_lt]
  decide

/-- C5 amended: every ranked-list aggregation (in particular Brand
Popularity) returns labels sorted by value descending, and labels with
equal aggregate value keep their first-appearance order in the exploded
view (the sort is stable); being a pure function of the view, the ordering
is deterministic for identical input. -/
theorem popularity_sorted_stable (v : List Order) (n k : Nat) :
    (brand_popularity v n).Pairwise (fun p q => q.2 ≤ p.2) ∧
    (value_counts (explode_brands v)).filter (fun p => p.2 = k) =
      (distinctPairs (explode_brands v)).filter (fun p => p.2 = k) := by
  constructor
  · rw [brand_popularity, value_counts]
    exact List.Pairwise.sublist (List.take_sublist _ _) pairwise_sortDesc
  · rw [value_counts]
    exact filter_sortDesc k _

/-- C6: increasing `topN` only appends: the Brand Popularity list for the
smaller parameter is a prefix of the list for the larger one, so no label
is removed or reordered. -/
theorem popularity_topN_prefix (v : List Order) (n1 n2 : Nat) (h : n1 ≤ n2) :
    brand_popularity v n1 <+: brand_popularity v n2 := by
  rw [brand_popularity, brand_popularity]
  have hp := List.take_prefix n1 ((value_counts (explode_brands v)).take n2)
  rwa [List.take_take, Nat.min_eq_left h] at hp

/-- Witness for C6 at a concrete view and parameters 1 ≤ 2. -/
theorem popularity_topN_prefix_witness :
    1 ≤ 2 ∧ brand_popularity exC6w 1 <+: brand_popularity exC6w 2 :=
  ⟨by decide, popularity_topN_prefix exC6w 1 2 (by decide)⟩

/-- C7: for every filtered view and brand, the exclusivity count (orders
whose brand list is exactly that single brand) never exceeds the
popularity count (occurrences of the brand in the exploded view). -/
theorem exclusivity_le_popularity (v : List Order) (b : String) :
    (single_brand_labels v).count b ≤ (explode_brands v).count b := by
  induction v with
  | nil => exact Nat.le_refl 0
  | cons o t ih =>
    simp only [single_brand_labels, explode_brands, List.filterMap_cons,
      List.flatMap_cons, List.count_append] at ih ⊢
    rcases ho : o.brands with _ | ⟨b1, bs⟩
    · simpa using ih
    · rcases bs with _ | ⟨b2, bs2⟩
      · by_cases hb : b1 = b
        · subst hb
          rw [List.count_cons_self, List.count_cons_self, List.count_nil]
          omega
        · rw [List.count_cons_of_ne (fun hc => hb hc.symm),
            List.count_cons_of_ne (fun hc => hb hc.symm), List.count_nil]
          omega
      · exact Nat.le_trans ih (Nat.le_add_left _ _)

/-- C8: on the empty filtered view every aggregation returns an empty
result (empty ranked list, empty label set, all-zero matrix) rather than
an error; all the aggregation functions are total. -/
theorem empty_view_empty_results (n : Nat) (c b sel : String) :
    brand_popularity [] n = [] ∧
    country_diversity [] n = [] ∧
    brand_penetration [] c b = 0 ∧
    penetration_rows [] = [] ∧
    avg_basket_size [] n = [] ∧
    top_brands [] = [] ∧
    (∀ x y : String, brand_cooccurrence [] x y = 0) ∧
    co_occurrence_df_labels [] = [] ∧
    co_occurrence_by_brand [] sel = [] ∧
    single_brand_labels [] = [] ∧
    brand_exclusivity [] n = [] := by
  refine ⟨?_, ?_, rfl, rfl, ?_, rfl, fun x y => rfl, rfl, rfl, rfl, ?_⟩
  · show ([] : List (String × Nat)).take n = []
    exact List.take_nil
  · show ([] : List (String × Nat)).take n = []
    exact List.take_nil
  · show ([] : List (String × ℚ)).take n = []
    exact List.take_nil
  · show ([] : List (String × ℚ)).take n = []
    exact List.take_nil

/-- C1 counterexample: a single US order buying both A and B.  The code's
penetration cell for (US, A) is 1/2 (one occurrence among two exploded
rows), while the claim demands 1/1 = 1 (one A-order among one US order). -/
theorem penetration_row_normalized_cex :
    brand_penetration exC1 "US" "A" = 1 / 2 ∧
    (orders_from exC1 "US").countP (fun o => decide ("A" ∈ o.brands)) = 1 ∧
    (orders_from exC1 "US").length = 1 ∧
    (1 / 2 : ℚ) ≠ 1 / 1 := by
  refine ⟨?_, by decide, by decide, by norm_num⟩
  have h1 : explode_brands (orders_from exC1 "US") = ["A", "B"] := by decide
  have h2 : (["A", "B"] : List String).count "A" = 1 := by decide
  have h3 : (["A", "B"] : List String).length = 2 := by decide
  simp only [brand_penetration, h1, h2, h3]
  norm_num

/-- C1 amended: the Brand Penetration cell (c, b) equals the number of
country-c orders containing b divided by the TOTAL NUMBER OF EXPLODED
(order, brand) ROWS of country c (the sum of that country's basket
sizes), not by the country's order count; combinations that never occur
still get 0. -/
theorem penetration_row_normalized (v : List Order) (c b : String)
    (hnd : ∀ o ∈ v, o.brands.Nodup)
    (hne : explode_brands (orders_from v c) ≠ []) :
    brand_penetration v c b =
      ((orders_from v c).countP (fun o => decide (b ∈ o.brands)) : ℚ) /
        (((((orders_from v c).map (fun o => o.brands.length)).sum : Nat)) : ℚ) ∧
    ((∀ o ∈ orders_from v c, b ∉ o.brands) → brand_penetration v c b = 0) := by
  have hlen : ¬ (explode_brands (orders_from v c)).length = 0 :=
    fun h => hne (List.eq_nil_of_length_eq_zero h)
  have hcount := count_explode_brands b (orders_from v c)
    (fun o ho => hnd o (List.mem_filter.mp ho).1)
  constructor
  · simp only [brand_penetration]
    rw [if_neg hlen, hcount, length_explode_brands]
  · intro hz
    simp only [brand_penetration]
    rw [if_neg hlen]
    have hzero : (explode_brands (orders_from v c)).count b = 0 := by
      rw [hcount, List.countP_eq_zero]
      intro o ho
      simpa using hz o ho
    rw [hzero]
    norm_num

/-- Witness for the amended C1 at a concrete two-country view. -/
theorem penetration_row_normalized_witness :
    (∀ o ∈ exC1w, o.brands.Nodup) ∧
    explode_brands (orders_from exC1w "US") ≠ [] ∧
    (brand_penetration exC1w "US" "A" =
      ((orders_from exC1w "US").countP
        (fun o => decide ("A" ∈ o.brands)) : ℚ) /
        (((((orders_from exC1w "US").map (fun o => o.brands.length)).sum : Nat)) : ℚ) ∧
    ((∀ o ∈ orders_from exC1w "US", "A" ∉ o.brands) →
      brand_penetration exC1w "US" "A" = 0)) :=
  ⟨by decide, by decide,
    penetration_row_normalized exC1w "US" "A" (by decide) (by decide)⟩

/-- C2 counterexample: one single-brand order for A plus one two-brand
order.  The code reports exclusivity 1 for A (its count over the one
single-brand order), while the claim demands 1/2 × 100 = 50 (division by
the total filtered order count, times 100). -/
theorem exclusivity_normalized_cex :
    brand_exclusivity exC2 10 = [("A", 1)] ∧
    exC2.countP (fun o => decide (o.brands = ["A"])) = 1 ∧
    exC2.length = 2 ∧
    (1 : ℚ) ≠ (1 / 2) * 100 := by
  refine ⟨?_, by decide, by decide, by norm_num⟩
  have h1 : value_counts (single_brand_labels exC2) = [("A", 1)] := by decide
  have h2 : (single_brand_labels exC2).length = 1 := by decide
  rw [brand_exclusivity, h1, h2]
  norm_num

/-- C2 amended: in percentage mode the Brand Exclusivity value of a brand
is its single-brand-order count divided by the NUMBER OF SINGLE-BRAND
ORDERS (not the total filtered order count), as a fraction without the
×100 factor. -/
theorem exclusivity_share_of_single (v : List Order) (n : Nat) (b : String)
    (q : ℚ) (h : (b, q) ∈ brand_exclusivity v n) :
    q = (v.countP (fun o => decide (o.brands = [b])) : ℚ) /
        (v.countP (fun o => decide (o.brands.length = 1)) : ℚ) := by
  rw [brand_exclusivity] at h
  rcases List.mem_map.mp (List.mem_of_mem_take h) with ⟨p, hp, hpq⟩
  have hb : p.1 = b := congrArg Prod.fst hpq
  have hq : (p.2 : ℚ) / (((single_brand_labels v).length : ℚ)) = q :=
    congrArg Prod.snd hpq
  have hk := mem_value_counts (l := single_brand_labels v)
    (b := p.1) (k := p.2) (by simpa using hp)
  rw [← hq, hk.1, hb, count_single_brand_labels, length_single_brand_labels]

/-- Witness for the amended C2 at a concrete view with one single-brand
order. -/
theorem exclusivity_share_of_single_witness :
    ((("B" : String), (1 : ℚ)) ∈ brand_exclusivity exC2w 10) ∧
    (1 : ℚ) = (exC2w.countP (fun o => decide (o.brands = ["B"])) : ℚ) /
      (exC2w.countP (fun o => decide (o.brands.length = 1)) : ℚ) := by
  have hmem : (("B" : String), (1 : ℚ)) ∈ brand_exclusivity exC2w 10 := by
    have h1 : value_counts (single_brand_labels exC2w) = [("B", 1)] := by
      decide
    have h2 : (single_brand_labels exC2w).length = 1 := by decide
    rw [brand_exclusivity, h1, h2]
    norm_num
  exact ⟨hmem, exclusivity_share_of_single exC2w 10 "B" 1 hmem⟩

/-- C9 counterexample: for the brands cell "A, A" the loader keeps the
untrimmed token " A" (so the order gets TWO brands "A" and " A"), while
the claimed split-trim-deduplicate pipeline would give the single brand
"A"; the loader performs no trimming. -/
theorem loader_no_trim_cex :
    (load_row exC9).brands = ["A", " A"] ∧
    pyStrip " A" = "A" ∧
    distinctFirst ((split_commas "A, A").map pyStrip) = ["A"] :=
  ⟨by decide, by decide, by decide⟩

/-- C9 amended: for every input row the loader splits the brands cell on
a comma and deduplicates the raw tokens into a set WITHOUT trimming
whitespace, and parses the order date keeping only the calendar day: a
string is a loaded brand iff it is literally one of the comma-separated
tokens, the loaded brand list is duplicate-free, and the time-of-day is
discarded. -/
theorem load_row_splits_dedups_date (r : RawRow) :
    (∀ b, b ∈ (load_row r).brands ↔ b ∈ split_commas r.brands) ∧
    (load_row r).brands.Nodup ∧
    (load_row r).orderDate = r.orderDate.day ∧
    (load_row r).shipCountryCode = r.shipCountryCode :=
  ⟨fun _ => mem_distinctFirst, nodup_distinctFirst, rfl, rfl⟩
